import Mathlib

/-!
Shallow embedding of `advanced-vector/vector.h`: the template classes `RawMemory<T>`
and `Vector<T>` (the header contains two revisions of the same classes; the second,
refactored revision is modelled, and every modelled operation behaves identically in
the first revision on the paths the theorems cover).

Modelling conventions:
* A raw storage block is a `Buf α`: a list of slots, each `some x` (a constructed
  element of value `x`) or `none` (uninitialized raw memory).  Slot writes are
  placement `new`, slot clears are `std::destroy_at`.
* A `Vector α` is modelled by its live element list `elems` (the constructed prefix
  `[0, size_)` of `data_`, in order) together with `cap = data_.Capacity()`;
  `size_` is `elems.length`.  Moves and copies both transfer the value of the source, so
  `MoveOrCopyN` (`std::uninitialized_move_n` / `std::uninitialized_copy_n`) has a
  single value-level contract.
* Element operations of `T` that may throw are driven by explicit fault schedules
  (`ctorOk : Bool` for the construction of a new element, `failAt : Option Nat` for
  the `k`-th copy/assignment of a bulk operation).  A function that can propagate an
  exception returns `Except`; the `.error` payload is the vector exactly as the
  caller observes it after the exception, together with counts of the element
  constructions and destructions the call performed (to account for leaks and
  double destructions).
* `this == &rhs` aliasing in `operator=` is modelled by an explicit `self` flag.
-/

namespace AdvVec

/-- A `RawMemory<T>` block of slots: `some x` is a constructed element, `none` is
uninitialized raw memory. -/
abbrev Buf (α : Type) : Type := List (Option α)

namespace Buf

/-- Models `RawMemory<T>::RawMemory(capacity)` (via `Allocate`): fresh storage of `n` slots,
all uninitialized. -/
def alloc (α : Type) (n : Nat) : Buf α := List.replicate n none

/-- Placement `new (buf + i) T(x)`: construct an element of value `x` in slot `i`. -/
def write (b : Buf α) (i : Nat) (x : α) : Buf α := b.set i (some x)

/-- Models `std::destroy_n(buf + i, n)`: destroy the `n` elements in slots `[i, i+n)`. -/
def clearN : Buf α → Nat → Nat → Buf α
  | b, _, 0 => b
  | b, i, n + 1 => clearN (b.set i none) (i + 1) n

/-- The live element list held in slots `[0, n)` of a buffer (used to read a
`Vector` back off its storage once `size_` is set to `n`). -/
def live [Inhabited α] (b : Buf α) (n : Nat) : List α :=
  (b.take n).map (fun o => o.getD default)

end Buf

/-- One call of `Vector<T>::MoveOrCopyN(first, n, result)`, i.e. of
`std::uninitialized_move_n` when `CanMove()` or `std::uninitialized_copy_n`
otherwise: constructs copies of `src[s0], src[s0+1], …` into the raw slots
`d0, d0+1, …` of `dst`.  `failAt = some k` means the construction of the `k`-th
copy throws; per the C++ standard the algorithm then destroys the `k` copies it
already constructed and propagates the exception.  The accumulator `k` counts the
copies constructed so far; the call returns the buffer, whether it completed, and
the numbers of element constructions and destructions it performed. -/
def MoveOrCopyNAux [Inhabited α] (src : List α) (s0 d0 : Nat) (failAt : Option Nat) :
    Nat → Nat → Buf α → Buf α × Bool × Nat × Nat
  | k, 0, dst => (dst, true, k, 0)
  | k, rem + 1, dst =>
    if failAt = some k then (Buf.clearN dst d0 k, false, k, k)
    else MoveOrCopyNAux src s0 d0 failAt (k + 1) rem
      (Buf.write dst (d0 + k) (src.getD (s0 + k) default))

/-- Models `MoveOrCopyN(src + s0, n, dst + d0)` with fault schedule `failAt`. -/
def MoveOrCopyN [Inhabited α] (src : List α) (s0 n : Nat) (dst : Buf α) (d0 : Nat)
    (failAt : Option Nat) : Buf α × Bool × Nat × Nat :=
  MoveOrCopyNAux src s0 d0 failAt 0 n dst

/-- Models `Vector<T>`: the live element list `elems` (the constructed prefix `[0, size_)`
of `data_`) and the capacity `cap` (`data_.Capacity()`).  `size_` is
`elems.length`. -/
structure Vector (α : Type) where
  elems : List α
  cap : Nat
  deriving DecidableEq, Repr

namespace Vector

/-- The class invariant: `size_ <= data_.Capacity()`. -/
def Inv (v : Vector α) : Prop := v.elems.length ≤ v.cap

/-- Models `Vector::Size()` -/
def Size (v : Vector α) : Nat := v.elems.length

/-- Models `Vector::Capacity()` -/
def Capacity (v : Vector α) : Nat := v.cap

/-- Models `Vector()`: default construction, empty with null storage. -/
def mk0 (α : Type) : Vector α := ⟨[], 0⟩

/-- Models `Vector(size_t size)`: capacity `n`, `n` value-constructed elements. -/
def mkSized (α : Type) [Inhabited α] (n : Nat) : Vector α :=
  ⟨List.replicate n default, n⟩

/-- Models `Vector(const Vector& other)`: fresh storage of capacity `other.size_`, the
`other.size_` live elements copy-constructed into it. -/
def copyCtor (other : Vector α) : Vector α := ⟨other.elems, other.elems.length⟩

/-- Models `Vector::Swap(other)`: swaps the `data_` members (pointer and capacity) and the
`size_` members — no element-lifetime operation.  Returns the pair
`(*this, other)` after the call. -/
def Swap (a b : Vector α) : Vector α × Vector α := (b, a)

/-- Models `Vector(Vector&& other)`: the members are default-initialized (empty, capacity
0), then `Swap(other)`.  Returns `(*this, other)` after the call. -/
def moveCtor (other : Vector α) : Vector α × Vector α := Swap (mk0 α) other

/-- Models `operator=(Vector&& rhs)`: `Swap(rhs)`.  Returns `(*this, rhs)` after the
call. -/
def moveAssign (a rhs : Vector α) : Vector α × Vector α := Swap a rhs

/-- Models `Vector::Reserve(new_capacity)`: no-op unless the capacity strictly grows;
otherwise new storage is allocated, the live elements are transferred by
`MoveOrCopyN` (value-preserving), the old elements destroyed, and the storages
swapped. -/
def Reserve (v : Vector α) (newCapacity : Nat) : Vector α :=
  if newCapacity ≤ v.cap then v
  else ⟨v.elems, newCapacity⟩

/-- Models `Vector::Resize(new_size)`. -/
def Resize [Inhabited α] (v : Vector α) (newSize : Nat) : Vector α :=
  if v.elems.length = newSize then v
  else if newSize < v.elems.length then ⟨v.elems.take newSize, v.cap⟩
  else
    ⟨(Reserve v newSize).elems ++
        List.replicate (newSize - (Reserve v newSize).elems.length) default,
      (Reserve v newSize).cap⟩

/-- Models `Vector::PopBack()`: destroys the last live element and decrements `size_`. -/
def PopBack (v : Vector α) : Vector α := ⟨v.elems.take (v.elems.length - 1), v.cap⟩

/-- Contract of `std::move_backward(buf + first, buf + last, buf + dlast)` on the
live region: the range `[first, last)` is move-assigned into the range of the same
length ending at `dlast`.  The iteration runs backwards, so each source value is
read before its slot is overwritten; value-level, the destination range receives
the original values of `[first, last)`. -/
def moveBackward (buf : List α) (first last dlast : Nat) : List α :=
  buf.take (dlast - (last - first)) ++ (buf.drop first).take (last - first) ++
    buf.drop dlast

/-- Models `Vector::InsertWithoutReallocation(index, args…)`, success path, as the live
slot list it leaves in `data_` (slots `[0, size_ + 1)`; `size_` itself is
incremented afterwards by `Emplace`):
if `index == size_`, placement-construct the new element at `data_ + size_`;
otherwise construct `tmp` from the arguments, placement-construct a move of the
last element into the raw slot `data_ + size_`, `std::move_backward` the range
`[index, size_ - 1)` one slot right, and move-assign `tmp` into slot `index`. -/
def InsertWithoutReallocation [Inhabited α] (v : Vector α) (index : Nat) (x : α) :
    List α :=
  if index = v.elems.length then
    v.elems ++ [x]
  else
    let n := v.elems.length
    let b1 := v.elems ++ [v.elems.getD (n - 1) default]
    let b2 := moveBackward b1 index (n - 1) n
    b2.set index x

/-- Models `Vector::InsertWithReallocation(index, args…)`.  A new block of
`size_ == 0 ? 1 : size_ * 2` slots is allocated, the new element is constructed at
slot `index`, then the old elements `[0, index)` are transferred to slots
`[0, index)` and the old elements `[index, size_)` to slots `[index + 1, size_ + 1)`
by `MoveOrCopyN`; only then are the old elements destroyed and the storages
swapped.  `ctorOk = false` models the construction of the new element throwing;
`failAt1` / `failAt2` model a throwing copy in the first / second transfer.  On an
exception each `catch` block destroys exactly what this call had constructed in the
new block (`destroy_at(new_data + index)` after a first-transfer failure,
`destroy_n(new_data, index + 1)` after a second-transfer failure), the block is
released, and `*this` — never written to — is unchanged.  Returns `.error`
(unchanged vector, constructions, destructions) or `.ok` ((new buffer, its
capacity), constructions, destructions). -/
def InsertWithReallocation [Inhabited α] (v : Vector α) (index : Nat) (x : α)
    (ctorOk : Bool) (failAt1 failAt2 : Option Nat) :
    Except (Vector α × Nat × Nat) ((Buf α × Nat) × Nat × Nat) :=
  if ctorOk then
    match MoveOrCopyN v.elems 0 index
        (Buf.write (Buf.alloc α (if v.elems.length = 0 then 1 else v.elems.length * 2))
          index x) 0 failAt1 with
    | (b2, true, c1, d1) =>
      match MoveOrCopyN v.elems index (v.elems.length - index) b2 (index + 1) failAt2 with
      | (b3, true, c2, d2) =>
        .ok ((b3, if v.elems.length = 0 then 1 else v.elems.length * 2),
          1 + c1 + c2, d1 + d2 + v.elems.length)
      | (_, false, c2, d2) => .error (v, 1 + c1 + c2, d1 + d2 + (index + 1))
    | (_, false, c1, d1) => .error (v, 1 + c1, d1 + 1)
  else
    .error (v, 0, 0)

/-- Models `Vector::Emplace(pos, args…)`, success path (no fault injected — every
`Except` produced by `InsertWithReallocation` is `.ok`).  `index = pos - begin()`;
if `size_ < data_.Capacity()` the element is inserted in place, otherwise through
reallocation; then `++size_` (reflected by reading `size_ + 1` live slots) and the
iterator `begin() + index` is returned.  Returns the vector and the index the
returned iterator designates. -/
def Emplace [Inhabited α] (v : Vector α) (index : Nat) (x : α) : Vector α × Nat :=
  if v.elems.length < v.cap then
    (⟨InsertWithoutReallocation v index x, v.cap⟩, index)
  else
    match InsertWithReallocation v index x true none none with
    | .ok ((b, newCap), _, _) => (⟨Buf.live b (v.elems.length + 1), newCap⟩, index)
    | .error (w, _, _) => (w, index)

/-- Models `Vector::EmplaceBack(args…)` (second revision): `return *Emplace(end(), args…);`
— `Emplace` at `index = size_`.  Returns the vector and the index of the element
the returned reference designates. -/
def EmplaceBack [Inhabited α] (v : Vector α) (x : α) : Vector α × Nat :=
  Emplace v v.elems.length x

/-- Models `void Vector::PushBack(value)`: calls `EmplaceBack(value)` and discards its
result; the function itself returns `void`, modelled by a `none` reference
channel. -/
def PushBack [Inhabited α] (v : Vector α) (x : α) : Vector α × Option Nat :=
  ((EmplaceBack v x).1, none)

/-- Models `Vector::Insert(pos, value)`: `return Emplace(pos, value);`. -/
def Insert [Inhabited α] (v : Vector α) (index : Nat) (x : α) : Vector α × Nat :=
  Emplace v index x

/-- The shifting loop of `Vector::Erase`:
`for (i = index; i != size_ - 1; ++i) data_[i] = std::forward<T>(data_[i + 1]);`
modelled with the remaining iteration count as fuel (`rem = (size_ - 1) - index`). -/
def shiftLeftAux [Inhabited α] : Nat → Nat → List α → List α
  | _, 0, buf => buf
  | k, rem + 1, buf => shiftLeftAux (k + 1) rem (buf.set k (buf.getD (k + 1) default))

/-- Models `Vector::Erase(pos)`: if `pos` is the last element, `PopBack()` and return
`end()`; otherwise move-assign every element after `index` one slot left, destroy
the last slot, decrement `size_`, and return `begin() + index`.  Returns the vector
and the index the returned iterator designates. -/
def Erase [Inhabited α] (v : Vector α) (index : Nat) : Vector α × Nat :=
  if index = v.elems.length - 1 then
    (PopBack v, (PopBack v).elems.length)
  else
    (⟨(shiftLeftAux index (v.elems.length - 1 - index) v.elems).take
        (v.elems.length - 1), v.cap⟩, index)

/-- Models `std::copy(rhs.data_, rhs.data_ + m, data_)` over live elements — plain element
copy-assignment, slot `k` receiving `src[k]`.  `failAt = some k` means the `k`-th
assignment throws; assignments already performed are not rolled back (the standard
algorithm has no cleanup).  Returns the destination and `some k` if the call threw
at `k`, `none` if it completed. -/
def copyAssignRangeAux [Inhabited α] (src : List α) (failAt : Option Nat) :
    Nat → Nat → List α → List α × Option Nat
  | _, 0, dst => (dst, none)
  | k, rem + 1, dst =>
    if failAt = some k then (dst, some k)
    else copyAssignRangeAux src failAt (k + 1) rem (dst.set k (src.getD k default))

/-- Models `operator=(const Vector& rhs)`.  `self` models `this == &rhs` (the identity test of the code).  If `rhs.size_ > data_.Capacity()`, a full copy `rhs_copy` is
built (`uninitialized_copy_n`, modelled by `MoveOrCopyN` with fault schedule
`failCtorAt`) and swapped in; `rhs_copy`, then holding the old elements, is
destroyed at scope exit.  Otherwise the existing storage is reused:
`std::copy` assigns the first `min(rhs.size_, size_)` elements (fault schedule
`failAssignAt`), then the surplus old elements are destroyed or the remaining
source elements are copy-constructed into raw slots (`uninitialized_copy_n`, fault
schedule `failCtorAt`), and `size_ = rhs.size_`.  Returns `.ok`/`.error` with the
vector as the caller observes it and the total number of element operations
(copy-constructions, assignments and destructions) performed. -/
def copyAssign [Inhabited α] (self : Bool) (a rhs : Vector α)
    (failCtorAt failAssignAt : Option Nat) : Except (Vector α × Nat) (Vector α × Nat) :=
  if self then .ok (a, 0)
  else if a.cap < rhs.elems.length then
    match MoveOrCopyN rhs.elems 0 rhs.elems.length (Buf.alloc α rhs.elems.length) 0
        failCtorAt with
    | (b, true, c, d) =>
      .ok (⟨Buf.live b rhs.elems.length, rhs.elems.length⟩, c + d + a.elems.length)
    | (_, false, c, d) => .error (a, c + d)
  else
    match copyAssignRangeAux rhs.elems failAssignAt 0
        (min rhs.elems.length a.elems.length) a.elems with
    | (dst, some k) => .error (⟨dst, a.cap⟩, k)
    | (dst, none) =>
      if rhs.elems.length ≤ a.elems.length then
        .ok (⟨dst.take rhs.elems.length, a.cap⟩,
          min rhs.elems.length a.elems.length + (a.elems.length - rhs.elems.length))
      else
        match MoveOrCopyN rhs.elems a.elems.length (rhs.elems.length - a.elems.length)
            (dst.map some ++ Buf.alloc α (a.cap - a.elems.length))
            a.elems.length failCtorAt with
        | (b, true, c, d) =>
          .ok (⟨Buf.live b rhs.elems.length, a.cap⟩,
            min rhs.elems.length a.elems.length + c + d)
        | (_, false, c, d) =>
          .error (⟨dst, a.cap⟩, min rhs.elems.length a.elems.length + c + d)

/-- Models `Vector::EmplaceBack(args…)` with fault injection, covering both revisions (the
first revision inlines exactly the `index == size_` instance of `Emplace` from the second revision).  If `size_ < data_.Capacity()`: placement-construct at `data_ + size_`
(`ctorOk = false`: the throw leaves `size_` and every slot as they were).
Otherwise `InsertWithReallocation` at `index = size_` (its single non-trivial
transfer is the first one, so `failAt` drives it).  `.ok`/`.error` carry the vector
the caller observes plus the construction and destruction counts of the call. -/
def EmplaceBackExc [Inhabited α] (v : Vector α) (x : α) (ctorOk : Bool)
    (failAt : Option Nat) : Except (Vector α × Nat × Nat) (Vector α × Nat × Nat) :=
  if v.elems.length < v.cap then
    if ctorOk then .ok (⟨v.elems ++ [x], v.cap⟩, 1, 0)
    else .error (v, 0, 0)
  else
    match InsertWithReallocation v v.elems.length x ctorOk failAt none with
    | .ok ((b, newCap), c, d) => .ok (⟨Buf.live b (v.elems.length + 1), newCap⟩, c, d)
    | .error e => .error e

end Vector

/-! ### Helper lemmas about the storage primitives -/

theorem Buf.clearN_length (α : Type) :
    ∀ (n : Nat) (b : Buf α) (i : Nat), (Buf.clearN b i n).length = b.length
  | 0, _, _ => rfl
  | n + 1, b, i => by
    simp only [Buf.clearN]
    rw [Buf.clearN_length α n]
    exact List.length_set b i none

theorem moveOrCopyNAux_length [Inhabited α] (src : List α) (s0 d0 : Nat)
    (failAt : Option Nat) :
    ∀ (rem k : Nat) (dst : Buf α),
      (MoveOrCopyNAux src s0 d0 failAt k rem dst).1.length = dst.length
  | 0, _, _ => rfl
  | rem + 1, k, dst => by
    simp only [MoveOrCopyNAux]
    by_cases h : failAt = some k
    · rw [if_pos h]
      exact Buf.clearN_length α k dst d0
    · rw [if_neg h, moveOrCopyNAux_length src s0 d0 failAt rem (k + 1)]
      exact List.length_set dst (d0 + k) _

/-- A faultless transfer completes. -/
theorem moveOrCopyNAux_none_ok [Inhabited α] (src : List α) (s0 d0 : Nat) :
    ∀ (rem k : Nat) (dst : Buf α),
      (MoveOrCopyNAux src s0 d0 none k rem dst).2.1 = true
  | 0, _, _ => rfl
  | rem + 1, k, dst => by
    simp only [MoveOrCopyNAux]
    rw [if_neg (by simp)]
    exact moveOrCopyNAux_none_ok src s0 d0 rem (k + 1) _

/-- A transfer that throws destroys exactly as many elements as it constructed. -/
theorem moveOrCopyNAux_fail_counts [Inhabited α] (src : List α) (s0 d0 : Nat)
    (failAt : Option Nat) :
    ∀ (rem k : Nat) (dst : Buf α) (b : Buf α) (c d : Nat),
      MoveOrCopyNAux src s0 d0 failAt k rem dst = (b, false, c, d) → c = d
  | 0, _, _, b, c, d => by
    intro h
    simp only [MoveOrCopyNAux, Prod.mk.injEq] at h
    exact absurd h.2.1 (by simp)
  | rem + 1, k, dst, b, c, d => by
    simp only [MoveOrCopyNAux]
    by_cases h : failAt = some k
    · rw [if_pos h]
      intro he
      simp only [Prod.mk.injEq] at he
      obtain ⟨-, -, h1, h2⟩ := he
      omega
    · rw [if_neg h]
      exact moveOrCopyNAux_fail_counts src s0 d0 failAt rem (k + 1) _ b c d

/-- A transfer that completes performed one construction per element and no
destruction. -/
theorem moveOrCopyNAux_ok_counts [Inhabited α] (src : List α) (s0 d0 : Nat)
    (failAt : Option Nat) :
    ∀ (rem k : Nat) (dst : Buf α) (b : Buf α) (c d : Nat),
      MoveOrCopyNAux src s0 d0 failAt k rem dst = (b, true, c, d) →
        c = k + rem ∧ d = 0
  | 0, k, dst, b, c, d => by
    intro h
    simp only [MoveOrCopyNAux, Prod.mk.injEq] at h
    obtain ⟨-, -, h1, h2⟩ := h
    omega
  | rem + 1, k, dst, b, c, d => by
    simp only [MoveOrCopyNAux]
    by_cases h : failAt = some k
    · rw [if_pos h]
      intro he
      simp only [Prod.mk.injEq] at he
      exact absurd he.2.1 (by simp)
    · rw [if_neg h]
      intro he
      have := moveOrCopyNAux_ok_counts src s0 d0 failAt rem (k + 1) _ b c d he
      omega

/-- Pointwise contents after a faultless transfer: slots `[d0 + k, d0 + k + rem)`
hold copies of `src[s0 + k], …`, every other slot is untouched. -/
theorem moveOrCopyNAux_none_getElem? [Inhabited α] (src : List α) (s0 d0 : Nat) :
    ∀ (rem k : Nat) (dst : Buf α) (j : Nat),
      ((MoveOrCopyNAux src s0 d0 none k rem dst).1)[j]? =
        if d0 + k ≤ j ∧ j < d0 + k + rem ∧ j < dst.length
        then some (some (src.getD (s0 + (j - d0)) default))
        else dst[j]?
  | 0, k, dst, j => by
    simp only [MoveOrCopyNAux]
    rw [if_neg (by omega)]
  | rem + 1, k, dst, j => by
    simp only [MoveOrCopyNAux]
    rw [if_neg (by simp)]
    rw [moveOrCopyNAux_none_getElem? src s0 d0 rem (k + 1) _ j]
    simp only [Buf.write, List.length_set, List.getElem?_set]
    by_cases h2 : d0 + k = j
    · subst h2
      rw [if_neg (by omega), if_pos rfl]
      by_cases h3 : d0 + k < dst.length
      · rw [if_pos h3, if_pos (by omega)]
        have h4 : s0 + (d0 + k - d0) = s0 + k := by omega
        rw [h4]
      · rw [if_neg h3, if_neg (by omega)]
        exact (List.getElem?_eq_none (by omega)).symm
    · by_cases h1 : d0 + (k + 1) ≤ j ∧ j < d0 + (k + 1) + rem ∧ j < dst.length
      · rw [if_pos h1, if_pos (by omega)]
      · rw [if_neg h1, if_neg h2, if_neg (by omega)]

/-- Pointwise reads of the live prefix of a buffer. -/
theorem Buf.live_getElem? [Inhabited α] (b : Buf α) (n j : Nat) :
    (Buf.live b n)[j]? =
      if j < n then Option.map (fun o => o.getD default) b[j]? else none := by
  simp only [Buf.live, List.getElem?_map, List.getElem?_take]
  by_cases h : j < n
  · rw [if_pos h, if_pos h]
  · rw [if_neg h, if_neg h]
    rfl

/-- Lemma: `List.insertIdx` in `take`/`drop` form. -/
theorem insertIdx_eq_take_cons_drop :
    ∀ (i : Nat) (l : List α) (x : α), i ≤ l.length →
      l.insertIdx i x = l.take i ++ x :: l.drop i
  | 0, l, x, _ => by simp [List.insertIdx_zero]
  | i + 1, [], x, h => by simp at h
  | i + 1, a :: as, x, h => by
    simp only [List.insertIdx_succ_cons, List.take_succ_cons, List.drop_succ_cons,
      List.cons_append, List.cons.injEq, true_and]
    exact insertIdx_eq_take_cons_drop i as x (by simpa using h)

/-- Pointwise reads of an insertion target `l.take i ++ x :: l.drop i`. -/
theorem insertTarget_getElem? (l : List α) (i j : Nat) (x : α) (h : i ≤ l.length) :
    (l.take i ++ x :: l.drop i)[j]? =
      if j < i then l[j]? else if j = i then some x else l[j - 1]? := by
  rw [List.getElem?_append]
  simp only [List.length_take, List.getElem?_cons, List.getElem?_take, List.getElem?_drop]
  split_ifs <;> first
    | rfl
    | (exfalso; omega)
    | (congr 1; omega)

/-- Lemma: `InsertWithoutReallocation` produces exactly the insertion of `x` at `index`. -/
theorem insertWithoutRealloc_spec [Inhabited α] (v : Vector α) (i : Nat) (x : α)
    (h : i ≤ v.elems.length) :
    Vector.InsertWithoutReallocation v i x =
      v.elems.take i ++ x :: v.elems.drop i := by
  unfold Vector.InsertWithoutReallocation
  by_cases hi : i = v.elems.length
  · rw [if_pos hi, hi]
    simp [List.take_length, List.drop_length]
  · rw [if_neg hi]
    have hin : i < v.elems.length := by omega
    show (Vector.moveBackward (v.elems ++ [v.elems.getD (v.elems.length - 1) default])
        i (v.elems.length - 1) v.elems.length).set i x =
      v.elems.take i ++ x :: v.elems.drop i
    set l := v.elems with hl
    set n := l.length with hn
    set g := l.getD (n - 1) default with hg
    have hmb : Vector.moveBackward (l ++ [g]) i (n - 1) n =
        l.take (i + 1) ++ (l.drop i).take (n - 1 - i) ++ [g] := by
      unfold Vector.moveBackward
      have e1 : n - (n - 1 - i) = i + 1 := by omega
      have e5 : l.drop n = [] := by
        rw [hn]
        exact List.drop_length l
      rw [e1, List.take_append_of_le_length (by omega),
        List.drop_append_of_le_length (le_of_lt hin),
        List.take_append_of_le_length (by simp only [List.length_drop]; omega),
        List.drop_append_of_le_length (le_of_eq hn), e5, List.nil_append]
    rw [hmb]
    have hsingle : (l.drop i).take (n - 1 - i) ++ [g] = l.drop i := by
      have hne : l.drop i ≠ [] := by
        intro hnil
        have := congrArg List.length hnil
        simp [List.length_drop] at this
        omega
      have e2 : (l.drop i).take (n - 1 - i) = (l.drop i).dropLast := by
        rw [List.dropLast_eq_take]
        congr 1
        simp [List.length_drop]
        omega
      have e3 : g = (l.drop i).getLast hne := by
        rw [List.getLast_eq_getElem, List.getElem_drop, hg,
          List.getD_eq_getElem l default (by omega)]
        congr 1
        simp [List.length_drop]
        omega
      rw [e2, e3, List.dropLast_append_getLast hne]
    have htak : l.take (i + 1) = l.take i ++ [l[i]] := by
      rw [List.take_succ, List.getElem?_eq_getElem hin]
      rfl
    rw [List.append_assoc, hsingle, htak, List.set_append,
      if_pos (by simp only [List.length_append, List.length_take, List.length_cons,
        List.length_nil]; omega),
      List.set_append, if_neg (by simp only [List.length_take]; omega)]
    have e4 : i - (l.take i).length = 0 := by
      simp only [List.length_take]
      omega
    rw [e4]
    simp

theorem MoveOrCopyN_def [Inhabited α] (src : List α) (s0 n : Nat) (dst : Buf α)
    (d0 : Nat) (failAt : Option Nat) :
    MoveOrCopyN src s0 n dst d0 failAt = MoveOrCopyNAux src s0 d0 failAt 0 n dst := rfl

/-- With no fault injected, `InsertWithReallocation` completes: it allocates
`size_ == 0 ? 1 : size_ * 2` slots and the first `size_ + 1` live slots of its
buffer are exactly the insertion of `x` at `index`. -/
theorem insertWithRealloc_none_ok [Inhabited α] (v : Vector α) (i : Nat) (x : α)
    (h : i ≤ v.elems.length) :
    ∃ b c d, Vector.InsertWithReallocation v i x true none none =
        .ok ((b, if v.elems.length = 0 then 1 else v.elems.length * 2), c, d) ∧
      Buf.live b (v.elems.length + 1) = v.elems.take i ++ x :: v.elems.drop i := by
  unfold Vector.InsertWithReallocation
  rw [if_pos rfl]
  set N := if v.elems.length = 0 then 1 else v.elems.length * 2 with hN
  have hN1 : v.elems.length + 1 ≤ N := by
    rw [hN]
    split <;> omega
  set B1 : Buf α := Buf.write (Buf.alloc α N) i x with hB1
  have hB1len : B1.length = N := by
    rw [hB1]
    simp [Buf.write, Buf.alloc]
  rcases hT1 : MoveOrCopyN v.elems 0 i B1 0 none with ⟨b2, ok1, c1, d1⟩
  have hok1 : ok1 = true := by
    have h0 : (MoveOrCopyN v.elems 0 i B1 0 none).2.1 = true :=
      moveOrCopyNAux_none_ok v.elems 0 0 i 0 B1
    rw [hT1] at h0
    exact h0
  subst hok1
  have hb2 : b2 = (MoveOrCopyNAux v.elems 0 0 none 0 i B1).1 := by
    rw [← MoveOrCopyN_def, hT1]
  have hb2len : b2.length = N := by
    rw [hb2]
    exact (moveOrCopyNAux_length v.elems 0 0 none i 0 B1).trans hB1len
  rcases hT2 : MoveOrCopyN v.elems i (v.elems.length - i) b2 (i + 1) none with
    ⟨b3, ok2, c2, d2⟩
  have hok2 : ok2 = true := by
    have h0 : (MoveOrCopyN v.elems i (v.elems.length - i) b2 (i + 1) none).2.1 = true :=
      moveOrCopyNAux_none_ok v.elems i (i + 1) (v.elems.length - i) 0 b2
    rw [hT2] at h0
    exact h0
  subst hok2
  have hb3 : b3 = (MoveOrCopyNAux v.elems i (i + 1) none 0 (v.elems.length - i) b2).1 := by
    rw [← MoveOrCopyN_def, hT2]
  refine ⟨b3, 1 + c1 + c2, d1 + d2 + v.elems.length, ?_, ?_⟩
  · simp only [hT1, hT2]
  · apply List.ext_getElem?
    intro j
    rw [Buf.live_getElem?, insertTarget_getElem? v.elems i j x h]
    by_cases hj4 : j < v.elems.length + 1
    swap
    · rw [if_neg hj4, if_neg (by omega), if_neg (by omega)]
      exact (List.getElem?_eq_none (by omega)).symm
    rw [if_pos hj4, hb3, moveOrCopyNAux_none_getElem?]
    by_cases hj1 : j < i
    · rw [if_neg (by omega), hb2, moveOrCopyNAux_none_getElem?,
        if_pos (by constructor; omega; constructor; omega; rw [hB1len]; omega),
        if_pos hj1]
      have e1 : 0 + (j - 0) = j := by omega
      rw [e1, List.getD_eq_getElem v.elems default (by omega),
        List.getElem?_eq_getElem (by omega)]
      rfl
    · by_cases hj2 : j = i
      · subst hj2
        rw [if_neg (by omega), hb2, moveOrCopyNAux_none_getElem?, if_neg (by omega),
          if_neg hj1, if_pos rfl, hB1]
        simp only [Buf.write, Buf.alloc, List.getElem?_set, List.length_replicate,
          List.getElem?_replicate]
        rw [if_pos trivial, if_pos (by omega)]
        rfl
      · rw [if_pos (by rw [hb2len]; omega), if_neg hj1, if_neg hj2]
        have e2 : i + (j - (i + 1)) = j - 1 := by omega
        rw [e2, List.getD_eq_getElem v.elems default (by omega),
          List.getElem?_eq_getElem (by omega)]
        rfl

/-- Lemma: `Vector::Emplace(pos, args…)` at a valid `index` yields exactly the insertion
of the new element at `index` (both the in-place and the reallocating branch). -/
theorem Emplace_elems [Inhabited α] (v : Vector α) (i : Nat) (x : α)
    (h : i ≤ v.elems.length) :
    (Vector.Emplace v i x).1.elems = v.elems.take i ++ x :: v.elems.drop i := by
  unfold Vector.Emplace
  by_cases hc : v.elems.length < v.cap
  · rw [if_pos hc]
    exact insertWithoutRealloc_spec v i x h
  · rw [if_neg hc]
    obtain ⟨b, c, d, hok, hlive⟩ := insertWithRealloc_none_ok v i x h
    rw [hok]
    exact hlive

/-- The capacity `Emplace` leaves behind: untouched in place, otherwise the
reallocation policy `size_ == 0 ? 1 : size_ * 2`. -/
theorem Emplace_cap [Inhabited α] (v : Vector α) (i : Nat) (x : α)
    (h : i ≤ v.elems.length) :
    (Vector.Emplace v i x).1.cap =
      if v.elems.length < v.cap then v.cap
      else if v.elems.length = 0 then 1 else v.elems.length * 2 := by
  unfold Vector.Emplace
  by_cases hc : v.elems.length < v.cap
  · rw [if_pos hc, if_pos hc]
  · rw [if_neg hc, if_neg hc]
    obtain ⟨b, c, d, hok, hlive⟩ := insertWithRealloc_none_ok v i x h
    rw [hok]

/-- Pointwise effect of the `Erase` shifting loop: positions `[k, k + rem)` receive
the original values of positions `[k + 1, k + rem]`, everything else is
untouched. -/
theorem shiftLeftAux_getElem? [Inhabited α] :
    ∀ (rem k : Nat) (buf : List α) (j : Nat), k + rem < buf.length →
      (Vector.shiftLeftAux k rem buf)[j]? =
        if k ≤ j ∧ j < k + rem then buf[j + 1]? else buf[j]?
  | 0, k, buf, j, _ => by
    simp only [Vector.shiftLeftAux]
    rw [if_neg (by omega)]
  | rem + 1, k, buf, j, h => by
    simp only [Vector.shiftLeftAux]
    rw [shiftLeftAux_getElem? rem (k + 1) _ j
      (by simp only [List.length_set]; omega)]
    simp only [List.getElem?_set, List.length_set]
    by_cases h1 : k + 1 ≤ j ∧ j < k + 1 + rem
    · rw [if_pos h1, if_neg (show ¬k = j + 1 by omega), if_pos (by omega)]
    · rw [if_neg h1]
      by_cases h2 : k = j
      · subst h2
        rw [if_pos rfl, if_pos (by omega), if_pos (by omega)]
        rw [List.getD_eq_getElem buf default (by omega),
          List.getElem?_eq_getElem (by omega)]
      · rw [if_neg h2, if_neg (by omega)]

/-- Lemma: `Erase` at a valid index removes exactly that element. -/
theorem Erase_elems [Inhabited α] (v : Vector α) (i : Nat) (h : i < v.elems.length) :
    (Vector.Erase v i).1.elems = v.elems.eraseIdx i := by
  unfold Vector.Erase
  by_cases hi : i = v.elems.length - 1
  · rw [if_pos hi]
    show v.elems.take (v.elems.length - 1) = v.elems.eraseIdx i
    rw [List.eraseIdx_eq_take_drop_succ, hi]
    have e1 : v.elems.drop (v.elems.length - 1 + 1) = [] := by
      have e2 : v.elems.length - 1 + 1 = v.elems.length := by omega
      rw [e2]
      exact List.drop_length v.elems
    rw [e1, List.append_nil]
  · rw [if_neg hi]
    have hi2 : i < v.elems.length - 1 := by omega
    show (Vector.shiftLeftAux i (v.elems.length - 1 - i) v.elems).take
        (v.elems.length - 1) = v.elems.eraseIdx i
    apply List.ext_getElem?
    intro j
    rw [List.getElem?_take, List.eraseIdx_eq_take_drop_succ, List.getElem?_append]
    simp only [List.length_take, List.getElem?_take, List.getElem?_drop]
    by_cases hj1 : j < v.elems.length - 1
    · rw [if_pos hj1, shiftLeftAux_getElem? (v.elems.length - 1 - i) i v.elems j
        (by omega)]
      by_cases hj2 : j < i
      · rw [if_neg (by omega), if_pos (by omega), if_pos hj2]
      · rw [if_pos (by omega), if_neg (by omega)]
        congr 1
        omega
    · rw [if_neg hj1, if_neg (by omega)]
      exact (List.getElem?_eq_none (by omega)).symm

/-- Lemma: `Emplace` returns the iterator `begin() + index` in every branch. -/
theorem Emplace_ret [Inhabited α] (v : Vector α) (i : Nat) (x : α) :
    (Vector.Emplace v i x).2 = i := by
  unfold Vector.Emplace
  by_cases hc : v.elems.length < v.cap
  · rw [if_pos hc]
  · rw [if_neg hc]
    rcases h : Vector.InsertWithReallocation v i x true none none with ⟨w, c, d⟩ | ⟨⟨b, nc⟩, c, d⟩
    · simp only [h]
    · simp only [h]

/-- Pointwise reads of `l.eraseIdx i`. -/
theorem eraseTarget_getElem? (l : List α) (i j : Nat) (h : i < l.length) :
    (l.eraseIdx i)[j]? =
      if j < i then l[j]? else if j < l.length - 1 then l[j + 1]? else none := by
  rw [List.eraseIdx_eq_take_drop_succ, List.getElem?_append]
  simp only [List.length_take, List.getElem?_take, List.getElem?_drop]
  split_ifs <;> first
    | rfl
    | (exfalso; omega)
    | (congr 1; omega)
    | (exact List.getElem?_eq_none (by omega))

/-- Lemma: `Reserve` never decreases the capacity. -/
theorem Reserve_cap (v : Vector α) (c : Nat) : v.cap ≤ (Vector.Reserve v c).cap := by
  unfold Vector.Reserve
  split
  next => exact le_refl _
  next h => show v.cap ≤ c; omega

/-- Lemma: `Resize` never decreases the capacity. -/
theorem Resize_cap [Inhabited α] (v : Vector α) (m : Nat) :
    v.cap ≤ (Vector.Resize v m).cap := by
  unfold Vector.Resize
  split
  next => exact le_refl _
  next =>
    split
    next => exact le_refl _
    next => exact Reserve_cap v m

/-- A faultless assignment loop completes. -/
theorem copyAssignRangeAux_none_ok [Inhabited α] (src : List α) :
    ∀ (rem k : Nat) (dst : List α),
      (Vector.copyAssignRangeAux src none k rem dst).2 = none
  | 0, _, _ => rfl
  | rem + 1, k, dst => by
    simp only [Vector.copyAssignRangeAux]
    rw [if_neg (by simp)]
    exact copyAssignRangeAux_none_ok src rem (k + 1) _

/-- A copy-assignment that completes never decreases the capacity. -/
theorem copyAssign_none_cap [Inhabited α] (s : Bool) (a rhs : Vector α)
    (w : Vector α) (k : Nat)
    (h : Vector.copyAssign s a rhs none none = .ok (w, k)) : a.cap ≤ w.cap := by
  unfold Vector.copyAssign at h
  by_cases hs : s = true
  · rw [if_pos hs] at h
    simp only [Except.ok.injEq, Prod.mk.injEq] at h
    rw [← h.1]
  · rw [if_neg hs] at h
    by_cases hlt : a.cap < rhs.elems.length
    · rw [if_pos hlt] at h
      rcases hT : MoveOrCopyN rhs.elems 0 rhs.elems.length (Buf.alloc α rhs.elems.length)
          0 none with ⟨b, ok, c, d⟩
      have hok : ok = true := by
        have h0 : (MoveOrCopyN rhs.elems 0 rhs.elems.length (Buf.alloc α rhs.elems.length)
            0 none).2.1 = true :=
          moveOrCopyNAux_none_ok rhs.elems 0 0 rhs.elems.length 0 _
        rw [hT] at h0
        exact h0
      subst hok
      simp only [hT] at h
      simp only [Except.ok.injEq, Prod.mk.injEq] at h
      rw [← h.1]
      exact le_of_lt hlt
    · rw [if_neg hlt] at h
      rcases hR : Vector.copyAssignRangeAux rhs.elems none 0
          (min rhs.elems.length a.elems.length) a.elems with ⟨dst, res⟩
      have hres : res = none := by
        have h0 := copyAssignRangeAux_none_ok rhs.elems
          (min rhs.elems.length a.elems.length) 0 a.elems
        rw [hR] at h0
        exact h0
      subst hres
      simp only [hR] at h
      by_cases hle : rhs.elems.length ≤ a.elems.length
      · rw [if_pos hle] at h
        simp only [Except.ok.injEq, Prod.mk.injEq] at h
        rw [← h.1]
      · rw [if_neg hle] at h
        rcases hT : MoveOrCopyN rhs.elems a.elems.length
            (rhs.elems.length - a.elems.length)
            (dst.map some ++ Buf.alloc α (a.cap - a.elems.length))
            a.elems.length none with ⟨b, ok, c, d⟩
        have hok : ok = true := by
          have h0 : (MoveOrCopyN rhs.elems a.elems.length
              (rhs.elems.length - a.elems.length)
              (dst.map some ++ Buf.alloc α (a.cap - a.elems.length))
              a.elems.length none).2.1 = true :=
            moveOrCopyNAux_none_ok rhs.elems a.elems.length a.elems.length _ 0 _
          rw [hT] at h0
          exact h0
        subst hok
        simp only [hT] at h
        simp only [Except.ok.injEq, Prod.mk.injEq] at h
        rw [← h.1]

/-- An `InsertWithReallocation` call that propagates an exception leaves the
vector untouched and destroyed exactly the elements it constructed. -/
theorem insertWithRealloc_error [Inhabited α] (v : Vector α) (i : Nat) (x : α)
    (ctorOk : Bool) (f1 f2 : Option Nat) (w : Vector α) (c d : Nat)
    (h : Vector.InsertWithReallocation v i x ctorOk f1 f2 = .error (w, c, d)) :
    w = v ∧ c = d := by
  unfold Vector.InsertWithReallocation at h
  by_cases hco : ctorOk = true
  · rw [if_pos hco] at h
    rcases hT1 : MoveOrCopyN v.elems 0 i
        (Buf.write (Buf.alloc α (if v.elems.length = 0 then 1 else v.elems.length * 2))
          i x) 0 f1 with ⟨b2, ok1, c1, d1⟩
    cases ok1
    · simp only [hT1] at h
      simp only [Except.error.injEq, Prod.mk.injEq] at h
      obtain ⟨h1, h2, h3⟩ := h
      have hc1 : c1 = d1 :=
        moveOrCopyNAux_fail_counts v.elems 0 0 f1 i 0 _ b2 c1 d1 hT1
      exact ⟨h1.symm, by omega⟩
    · simp only [hT1] at h
      have hc1 : c1 = 0 + i ∧ d1 = 0 :=
        moveOrCopyNAux_ok_counts v.elems 0 0 f1 i 0 _ b2 c1 d1 hT1
      rcases hT2 : MoveOrCopyN v.elems i (v.elems.length - i) b2 (i + 1) f2 with
        ⟨b3, ok2, c2, d2⟩
      cases ok2
      · simp only [hT2] at h
        simp only [Except.error.injEq, Prod.mk.injEq] at h
        obtain ⟨h1, h2, h3⟩ := h
        have hc2 : c2 = d2 :=
          moveOrCopyNAux_fail_counts v.elems i (i + 1) f2 (v.elems.length - i) 0 _
            b3 c2 d2 hT2
        exact ⟨h1.symm, by omega⟩
      · simp only [hT2] at h
        simp at h
  · rw [if_neg hco] at h
    simp only [Except.error.injEq, Prod.mk.injEq] at h
    obtain ⟨h1, h2, h3⟩ := h
    exact ⟨h1.symm, by omega⟩

/-- The assignment loop leaves a destination of unchanged length in which every
slot holds either its original value or the corresponding source value. -/
theorem copyAssignRangeAux_spec [Inhabited α] (src : List α) (fa : Option Nat) :
    ∀ (rem k : Nat) (dst : List α) (res : List α × Option Nat),
      k + rem ≤ src.length →
      Vector.copyAssignRangeAux src fa k rem dst = res →
      res.1.length = dst.length ∧
      ∀ (j : Nat), res.1[j]? = dst[j]? ∨ res.1[j]? = src[j]?
  | 0, k, dst, res, _, h => by
    simp only [Vector.copyAssignRangeAux] at h
    subst h
    constructor
    · rfl
    · intro j
      exact Or.inl rfl
  | rem + 1, k, dst, res, hb, h => by
    simp only [Vector.copyAssignRangeAux] at h
    by_cases hf : fa = some k
    · rw [if_pos hf] at h
      subst h
      constructor
      · rfl
      · intro j
        exact Or.inl rfl
    · rw [if_neg hf] at h
      have hrec := copyAssignRangeAux_spec src fa rem (k + 1)
        (dst.set k (src.getD k default)) res (by omega) h
      refine ⟨hrec.1.trans (List.length_set dst k _), ?_⟩
      intro j
      rcases hrec.2 j with h1 | h1
      · rw [List.getElem?_set] at h1
        by_cases hk : k = j
        · subst hk
          by_cases hkl : k < dst.length
          · rw [if_pos rfl, if_pos hkl] at h1
            refine Or.inr ?_
            rw [h1, List.getD_eq_getElem src default (by omega),
              List.getElem?_eq_getElem (by omega)]
          · rw [if_pos rfl, if_neg hkl] at h1
            refine Or.inl ?_
            rw [h1, List.getElem?_eq_none (by omega)]
        · rw [if_neg hk] at h1
          exact Or.inl h1
      · exact Or.inr h1

/-! ### The claims -/

/-- Claim C1.  For every vector of size `n` and every index `i` with `0 ≤ i ≤ n`,
`Insert`/`Emplace` at position `begin() + i` increases the size to `n + 1`, places
the newly constructed value at index `i`, and leaves all previously present
elements in their original relative order: elements before `i` at the same
indices, elements from `i` onward shifted up by one.  (`Insert` delegates to
`Emplace`, last conjunct.) -/
theorem C1_emplace_inserts_at_index [Inhabited α] (v : Vector α) (i : Nat) (x : α)
    (h : i ≤ v.Size) :
    (Vector.Emplace v i x).1.Size = v.Size + 1 ∧
    (Vector.Emplace v i x).1.elems = v.elems.insertIdx i x ∧
    ((Vector.Emplace v i x).1.elems)[i]? = some x ∧
    (∀ j, j < i → ((Vector.Emplace v i x).1.elems)[j]? = v.elems[j]?) ∧
    (∀ j, i ≤ j → j < v.Size → ((Vector.Emplace v i x).1.elems)[j + 1]? = v.elems[j]?) ∧
    Vector.Insert v i x = Vector.Emplace v i x := by
  unfold Vector.Size at h ⊢
  have hel := Emplace_elems v i x h
  have hlen : (Vector.Emplace v i x).1.elems.length = v.elems.length + 1 := by
    rw [hel]
    simp only [List.length_append, List.length_take, List.length_cons, List.length_drop]
    omega
  refine ⟨hlen, ?_, ?_, ?_, ?_, rfl⟩
  · rw [hel, insertIdx_eq_take_cons_drop i v.elems x h]
  · rw [hel, insertTarget_getElem? v.elems i i x h, if_neg (by omega), if_pos rfl]
  · intro j hj
    rw [hel, insertTarget_getElem? v.elems i j x h, if_pos hj]
  · intro j h1 h2
    rw [hel, insertTarget_getElem? v.elems i (j + 1) x h, if_neg (by omega),
      if_neg (by omega)]
    congr 1

/-- Witness for C1 at the concrete scenario given in the specification: inserting 99 at index 1 of
`[1, 2, 3]` (full, so reallocating) gives `[1, 99, 2, 3]`. -/
theorem C1_witness :
    (Vector.Emplace (⟨[1, 2, 3], 3⟩ : Vector Nat) 1 99).1.Size = 4 ∧
    (Vector.Emplace (⟨[1, 2, 3], 3⟩ : Vector Nat) 1 99).1.elems = [1, 99, 2, 3] := by
  have h := C1_emplace_inserts_at_index (⟨[1, 2, 3], 3⟩ : Vector Nat) 1 99 (by decide)
  refine ⟨h.1, ?_⟩
  rw [h.2.1]
  decide

/-- Claim C3, counterexample.  `PushBack` has return type `void` (its reference
channel is empty), so its result is not a reference to the element at
`Size() - 1`; the claim fails for `PushBack` already on an empty vector. -/
theorem C3_counterexample :
    (Vector.PushBack (⟨[], 0⟩ : Vector Nat) 5).2 ≠
      some ((Vector.PushBack (⟨[], 0⟩ : Vector Nat) 5).1.Size - 1) := by decide

/-- Claim C3, amended.  `EmplaceBack` returns a reference to the element now stored
at index `Size() - 1`, which holds the new value; `PushBack` produces the same
vector but returns `void`, discarding the reference produced by `EmplaceBack`. -/
theorem C3_emplaceBack_returns_last [Inhabited α] (v : Vector α) (x : α) :
    (Vector.EmplaceBack v x).2 = (Vector.EmplaceBack v x).1.Size - 1 ∧
    ((Vector.EmplaceBack v x).1.elems)[(Vector.EmplaceBack v x).2]? = some x ∧
    (Vector.PushBack v x).1 = (Vector.EmplaceBack v x).1 ∧
    (Vector.PushBack v x).2 = none := by
  unfold Vector.PushBack Vector.EmplaceBack
  have hret := Emplace_ret v v.elems.length x
  have hel := Emplace_elems v v.elems.length x (le_refl _)
  have hlen : (Vector.Emplace v v.elems.length x).1.elems.length =
      v.elems.length + 1 := by
    rw [hel]
    simp only [List.length_append, List.length_take, List.length_cons, List.length_drop]
    omega
  refine ⟨?_, ?_, rfl, rfl⟩
  · rw [hret]
    unfold Vector.Size
    omega
  · rw [hret, hel, insertTarget_getElem? v.elems v.elems.length v.elems.length x
      (le_refl _), if_neg (by omega), if_pos rfl]

/-- Claim C4.  When a size-increasing operation reallocates because `size_` equals
the capacity, the new capacity is exactly twice the old one, with 1 replacing 0;
when there is free capacity, no reallocation happens and the capacity is
unchanged.  (`PushBack`, `EmplaceBack` and `Insert` all delegate to `Emplace`.) -/
theorem C4_growth_doubles_capacity [Inhabited α] (v : Vector α) (i : Nat) (x : α)
    (h : i ≤ v.Size) :
    (v.Size = v.Capacity →
      (Vector.Emplace v i x).1.Capacity =
        if v.Capacity = 0 then 1 else 2 * v.Capacity) ∧
    (v.Size < v.Capacity → (Vector.Emplace v i x).1.Capacity = v.Capacity) := by
  have hc := Emplace_cap v i x (by exact h)
  unfold Vector.Size at h
  unfold Vector.Size Vector.Capacity
  constructor
  · intro hfull
    rw [hc, if_neg (by omega), hfull]
    by_cases h0 : v.cap = 0
    · rw [if_pos h0, if_pos h0]
    · rw [if_neg h0, if_neg h0, Nat.mul_comm]
  · intro hlt
    rw [hc, if_pos hlt]

/-- Witness for C4: a full vector of capacity 1 grows to capacity 2, and a vector
with spare capacity keeps it. -/
theorem C4_witness :
    (Vector.Emplace (⟨[7], 1⟩ : Vector Nat) 0 3).1.Capacity = 2 ∧
    (Vector.Emplace (⟨[7], 9⟩ : Vector Nat) 0 3).1.Capacity = 9 := by
  have h1 := (C4_growth_doubles_capacity (⟨[7], 1⟩ : Vector Nat) 0 3 (by decide)).1
    (by decide)
  have h2 := (C4_growth_doubles_capacity (⟨[7], 9⟩ : Vector Nat) 0 3 (by decide)).2
    (by decide)
  exact ⟨h1.trans (by decide), h2⟩

/-- Claim C5.  Move-construction transfers the storage of the source and size wholesale
(the new vector is exactly the old one) and leaves the source default-constructed:
size 0, capacity 0. -/
theorem C5_move_construction (α : Type) (a : Vector α) :
    (Vector.moveCtor a).1 = a ∧ (Vector.moveCtor a).2.Size = 0 ∧
    (Vector.moveCtor a).2.Capacity = 0 ∧ (Vector.moveCtor a).2 = Vector.mk0 α :=
  ⟨rfl, rfl, rfl, rfl⟩

/-- Claim C6.  Move-assignment is the symmetric exchange `Swap`: afterwards `a`
holds exactly what `rhs` held and `rhs` holds exactly what `a` held. -/
theorem C6_move_assignment_swaps (α : Type) (a rhs : Vector α) :
    (Vector.moveAssign a rhs).1 = rhs ∧ (Vector.moveAssign a rhs).2 = a :=
  ⟨rfl, rfl⟩

/-- Claim C8.  For a vector of size `n ≥ 1` and an index `i < n`, `Erase` at
`begin() + i` decreases the size to `n - 1`, removes exactly the element at `i`
(survivors keep their relative order), and when `i = n - 1` it is exactly
`PopBack`. -/
theorem C8_erase_removes_at_index [Inhabited α] (v : Vector α) (i : Nat)
    (h : i < v.Size) :
    (Vector.Erase v i).1.Size = v.Size - 1 ∧
    (Vector.Erase v i).1.elems = v.elems.eraseIdx i ∧
    (∀ j, j < i → ((Vector.Erase v i).1.elems)[j]? = v.elems[j]?) ∧
    (∀ j, i ≤ j → j < v.Size - 1 → ((Vector.Erase v i).1.elems)[j]? = v.elems[j + 1]?) ∧
    (i = v.Size - 1 → (Vector.Erase v i).1 = Vector.PopBack v) := by
  unfold Vector.Size at h ⊢
  have he := Erase_elems v i h
  refine ⟨?_, he, ?_, ?_, ?_⟩
  · rw [he, List.length_eraseIdx, if_pos h]
  · intro j hj
    rw [he, eraseTarget_getElem? v.elems i j h, if_pos hj]
  · intro j h1 h2
    rw [he, eraseTarget_getElem? v.elems i j h, if_neg (by omega), if_pos h2]
  · intro hi
    unfold Vector.Erase
    rw [if_pos hi]

/-- Witness for C8 at the concrete scenario given in the specification: erasing index 0 of `[1, 99, 2, 3]`
gives `[99, 2, 3]`, and erasing the last index acts as `PopBack`. -/
theorem C8_witness :
    (Vector.Erase (⟨[1, 99, 2, 3], 4⟩ : Vector Nat) 0).1.elems = [99, 2, 3] ∧
    (Vector.Erase (⟨[99, 2, 3], 4⟩ : Vector Nat) 2).1 =
      Vector.PopBack (⟨[99, 2, 3], 4⟩ : Vector Nat) := by
  have h1 := C8_erase_removes_at_index (⟨[1, 99, 2, 3], 4⟩ : Vector Nat) 0 (by decide)
  have h2 := C8_erase_removes_at_index (⟨[99, 2, 3], 4⟩ : Vector Nat) 2 (by decide)
  refine ⟨?_, h2.2.2.2.2 (by decide)⟩
  rw [h1.2.1]
  decide

/-- Claim C9, counterexample.  The claim includes swap and assignment among the
operations across which capacity never decreases, but move-assignment swaps
capacities: move-assigning an empty vector into one of capacity 2 leaves it with
capacity 0. -/
theorem C9_counterexample :
    (Vector.moveAssign (⟨[1, 2], 2⟩ : Vector Nat) (Vector.mk0 Nat)).1.Capacity <
      Vector.Capacity (⟨[1, 2], 2⟩ : Vector Nat) := by decide

/-- Claim C9, amended.  Capacity is non-decreasing across `Reserve`, `Resize`,
`PopBack`, `Emplace` (hence `Insert`/`PushBack`/`EmplaceBack`), `Erase`, and a
completing copy-assignment; `Swap` and move-assignment instead exchange the two
capacities of the two vectors (and so may decrease one of them), and move-construction
leaves the source with capacity 0. -/
theorem C9_capacity_nondecreasing [Inhabited α] (v a b : Vector α) (c m i : Nat)
    (x : α) :
    v.cap ≤ (Vector.Reserve v c).cap ∧
    v.cap ≤ (Vector.Resize v m).cap ∧
    (Vector.PopBack v).cap = v.cap ∧
    (i ≤ v.Size → v.cap ≤ (Vector.Emplace v i x).1.cap) ∧
    (Vector.Erase v i).1.cap = v.cap ∧
    (∀ s rhs w k, Vector.copyAssign s a rhs none none = .ok (w, k) → a.cap ≤ w.cap) ∧
    (Vector.Swap a b).1.cap = b.cap ∧ (Vector.Swap a b).2.cap = a.cap ∧
    (Vector.moveAssign a b).1.cap = b.cap ∧ (Vector.moveAssign a b).2.cap = a.cap ∧
    (Vector.moveCtor a).2.cap = 0 := by
  refine ⟨Reserve_cap v c, Resize_cap v m, rfl, ?_, ?_, ?_, rfl, rfl, rfl, rfl, rfl⟩
  · intro hi
    rw [Emplace_cap v i x hi]
    split
    next => exact le_refl _
    next h0 =>
      split
      next h1 => unfold Vector.Size at hi; omega
      next h1 => unfold Vector.Size at hi; omega
  · unfold Vector.Erase
    split
    next => rfl
    next => rfl
  · intro s rhs w k hok
    exact copyAssign_none_cap s a rhs w k hok

/-- Witness for C9 (amended), at concrete vectors. -/
theorem C9_witness :
    Vector.Capacity (⟨[7], 1⟩ : Vector Nat) ≤
      (Vector.Emplace (⟨[7], 1⟩ : Vector Nat) 0 3).1.Capacity ∧
    (Vector.moveAssign (⟨[1], 5⟩ : Vector Nat) ⟨[], 9⟩).1.Capacity = 9 := by
  have h := C9_capacity_nondecreasing (⟨[7], 1⟩ : Vector Nat) ⟨[1], 5⟩ ⟨[], 9⟩ 0 0 0 3
  exact ⟨h.2.2.2.1 (by decide), h.2.2.2.2.2.2.2.2.1⟩

/-- Claim C10.  Self-copy-assignment (`this == &rhs`, modelled by the `self` flag)
is the identity: the vector is unchanged and zero element copies, assignments or
destructions are performed — regardless of any fault schedule, since nothing can
throw. -/
theorem C10_self_assignment_identity [Inhabited α] (v : Vector α)
    (fc fa : Option Nat) :
    Vector.copyAssign true v v fc fa = .ok (v, 0) := rfl

/-- Claim C2.  `EmplaceBack` (and `PushBack`, which merely wraps it) is strongly
exception-safe: if the construction of the new element throws, or any copy made
during a growth-triggering reallocation throws (the transfer copies exactly when
copying is available and moving may throw), the vector is left exactly as it was
— same size, same capacity, same element values — and the call destroyed exactly
the elements it had constructed, so nothing is leaked or destroyed twice. -/
theorem C2_emplaceBack_strong_exception_safety [Inhabited α] (v : Vector α) (x : α)
    (ctorOk : Bool) (failAt : Option Nat) (w : Vector α) (c d : Nat)
    (h : Vector.EmplaceBackExc v x ctorOk failAt = .error (w, c, d)) :
    w = v ∧ c = d := by
  unfold Vector.EmplaceBackExc at h
  by_cases hc : v.elems.length < v.cap
  · rw [if_pos hc] at h
    by_cases hco : ctorOk = true
    · rw [if_pos hco] at h
      simp at h
    · rw [if_neg hco] at h
      simp only [Except.error.injEq, Prod.mk.injEq] at h
      obtain ⟨h1, h2, h3⟩ := h
      exact ⟨h1.symm, by omega⟩
  · rw [if_neg hc] at h
    rcases hI : Vector.InsertWithReallocation v v.elems.length x ctorOk failAt none with
      ⟨w', c', d'⟩ | ⟨⟨b, nc⟩, c', d'⟩
    · simp only [hI] at h
      simp only [Except.error.injEq, Prod.mk.injEq] at h
      obtain ⟨h1, h2, h3⟩ := h
      obtain ⟨hw, hcd⟩ := insertWithRealloc_error v v.elems.length x ctorOk failAt none
        w' c' d' hI
      refine ⟨?_, by omega⟩
      rw [← h1, hw]
    · simp only [hI] at h
      simp at h

/-- Witness for C2: a full one-element vector whose reallocation copy throws at
element 0 is left untouched, with one construction and one destruction. -/
theorem C2_witness :
    Vector.EmplaceBackExc (⟨[5], 1⟩ : Vector Nat) 7 true (some 0) =
        .error (⟨[5], 1⟩, 1, 1) ∧
      ((⟨[5], 1⟩ : Vector Nat) = ⟨[5], 1⟩ ∧ (1 : Nat) = 1) :=
  ⟨rfl,
    C2_emplaceBack_strong_exception_safety (⟨[5], 1⟩ : Vector Nat) 7 true (some 0)
      ⟨[5], 1⟩ 1 1 rfl⟩

/-- Claim C7, counterexample.  Copy-assignment in the storage-reuse path is not
strongly exception-safe: assigning `[1, 2]` into `[10, 20]` (capacities equal, so
storage is reused) with the second element assignment throwing leaves the target
as `[1, 20]`, not its original value. -/
theorem C7_counterexample :
    Vector.copyAssign false (⟨[10, 20], 2⟩ : Vector Nat) ⟨[1, 2], 2⟩ none (some 1) =
        .error (⟨[1, 20], 2⟩, 1) ∧
      (⟨[1, 20], 2⟩ : Vector Nat) ≠ ⟨[10, 20], 2⟩ :=
  ⟨rfl, by decide⟩

/-- Claim C7, amended.  Copy-assignment is strongly exception-safe only when
`rhs.Size()` exceeds the capacity of the target (the build-new-then-swap path): a
throw then leaves the target exactly as it was.  When the existing storage is
reused, a throw leaves the target with its original size and capacity, but each
element may already hold the corresponding value from `rhs` (basic exception
safety only). -/
theorem C7_copyAssign_partial_safety [Inhabited α] (a rhs : Vector α)
    (fc fa : Option Nat) (w : Vector α) (k : Nat)
    (h : Vector.copyAssign false a rhs fc fa = .error (w, k)) :
    (a.cap < rhs.Size → w = a) ∧
    (rhs.Size ≤ a.cap → w.cap = a.cap ∧ w.Size = a.Size ∧
      ∀ (j : Nat), w.elems[j]? = a.elems[j]? ∨ w.elems[j]? = rhs.elems[j]?) := by
  unfold Vector.copyAssign at h
  rw [if_neg (by simp)] at h
  unfold Vector.Size
  by_cases hlt : a.cap < rhs.elems.length
  · rw [if_pos hlt] at h
    rcases hT : MoveOrCopyN rhs.elems 0 rhs.elems.length (Buf.alloc α rhs.elems.length)
        0 fc with ⟨b, ok, c, d⟩
    cases ok
    · simp only [hT] at h
      simp only [Except.error.injEq, Prod.mk.injEq] at h
      obtain ⟨h1, -⟩ := h
      constructor
      · intro
        exact h1.symm
      · intro hle
        exfalso
        omega
    · simp only [hT] at h
      simp at h
  · rw [if_neg hlt] at h
    rcases hR : Vector.copyAssignRangeAux rhs.elems fa 0
        (min rhs.elems.length a.elems.length) a.elems with ⟨dst, res⟩
    have hspec := copyAssignRangeAux_spec rhs.elems fa
      (min rhs.elems.length a.elems.length) 0 a.elems (dst, res) (by omega) hR
    cases res with
    | some kk =>
      simp only [hR] at h
      simp only [Except.error.injEq, Prod.mk.injEq] at h
      obtain ⟨h1, -⟩ := h
      constructor
      · intro hl
        exfalso
        omega
      · intro hle
        rw [← h1]
        exact ⟨rfl, hspec.1, fun j => hspec.2 j⟩
    | none =>
      simp only [hR] at h
      by_cases hle2 : rhs.elems.length ≤ a.elems.length
      · rw [if_pos hle2] at h
        simp at h
      · rw [if_neg hle2] at h
        rcases hT : MoveOrCopyN rhs.elems a.elems.length
            (rhs.elems.length - a.elems.length)
            (dst.map some ++ Buf.alloc α (a.cap - a.elems.length))
            a.elems.length fc with ⟨b, ok, c, d⟩
        cases ok
        · simp only [hT] at h
          simp only [Except.error.injEq, Prod.mk.injEq] at h
          obtain ⟨h1, -⟩ := h
          constructor
          · intro hl
            exfalso
            omega
          · intro hle
            rw [← h1]
            exact ⟨rfl, hspec.1, fun j => hspec.2 j⟩
        · simp only [hT] at h
          simp at h

/-- Witness for C7 (amended), at the same input as the counterexample: the interrupted
reuse-path assignment keeps the original size and capacity. -/
theorem C7_witness :
    Vector.copyAssign false (⟨[10, 20], 2⟩ : Vector Nat) ⟨[1, 2], 2⟩ none (some 1) =
        .error (⟨[1, 20], 2⟩, 1) ∧
      (⟨[1, 20], 2⟩ : Vector Nat).cap = (⟨[10, 20], 2⟩ : Vector Nat).cap ∧
      Vector.Size (⟨[1, 20], 2⟩ : Vector Nat) =
        Vector.Size (⟨[10, 20], 2⟩ : Vector Nat) := by
  have h := C7_copyAssign_partial_safety (⟨[10, 20], 2⟩ : Vector Nat) ⟨[1, 2], 2⟩
    none (some 1) ⟨[1, 20], 2⟩ 1 rfl
  exact ⟨rfl, (h.2 (by decide)).1, (h.2 (by decide)).2.1⟩

end AdvVec
